import Mathlib

/-!
Shallow embedding of the wordle solver (src/wordle.py) and verification of the
spec claims.  Words and feedback strings are `List Char`; Python dicts keyed by
letters are association lists `List (Char × Hint)`; Python exceptions become
`Option`.
-/

set_option maxRecDepth 4000

/-- Word length `LENGTH = 5` from the source. -/
def LENGTH : Nat := 5

/-- The three feedback symbols (`HintType` enum: green = Exact, yellow = Present,
black = Absent). -/
inductive HintType where
  | green
  | yellow
  | black
deriving DecidableEq, Repr

/-- Embedding of `HintType(c)`: decode a feedback character; `none` models the `ValueError`
Python raises on an invalid symbol. -/
def charToHintType : Char → Option HintType
  | 'g' => some HintType.green
  | 'y' => some HintType.yellow
  | 'b' => some HintType.black
  | _ => none

/-- The `Prompt` dataclass: one position of a guess with its letter and color. -/
structure Prompt where
  idx : Nat
  letter : Char
  hint_type : HintType
deriving DecidableEq, Repr

/-- The `Hint` dataclass: count range plus per-position slots
(`some true` = MustBe, `some false` = MustNotBe, `none` = Unknown). -/
structure Hint where
  min_count : Nat
  max_count : Nat
  indexes : List (Option Bool)
deriving DecidableEq, Repr

/-- Embedding of `Prompt(i, word[i], HintType(colors[i]))` for a single index `i`;
`none` models the `IndexError`/`ValueError` exceptions. -/
def promptAt (word colors : List Char) (i : Nat) : Option Prompt :=
  match word.get? i with
  | none => none
  | some c =>
    match colors.get? i with
    | none => none
    | some col =>
      match charToHintType col with
      | none => none
      | some ht => some ⟨i, c, ht⟩

/-- The list comprehension `[Prompt(i, word[i], HintType(colors[i])) for i in ixs]`,
failing if any element fails. -/
def collectPrompts (word colors : List Char) : List Nat → Option (List Prompt)
  | [] => some []
  | i :: is =>
    match promptAt word colors i, collectPrompts word colors is with
    | some p, some ps => some (p :: ps)
    | _, _ => none

/-- The set `{prompt.letter for prompt in guess}`: the distinct letters of the
guess (first occurrence kept; the resulting per-letter mapping does not depend
on the iteration order). -/
def dedupFirst : List Char → List Char
  | [] => []
  | c :: rest => c :: (dedupFirst rest).filter (fun d => !(d == c))

/-- Body of the per-letter loop of `Hint.parse_guess`: build the `Hint` for one
letter from the prompts of the guess. -/
def mkLetterHint (guess : List Prompt) (letter : Char) : Hint :=
  let prompts := guess.filter (fun pr => pr.letter == letter)
  let minc := (prompts.filter (fun pr => pr.hint_type == HintType.green)).length
    + (prompts.filter (fun pr => pr.hint_type == HintType.yellow)).length
  let maxc :=
    if (prompts.filter (fun pr => pr.hint_type == HintType.black)).length ≠ 0 then minc
    else LENGTH
  let indexes := prompts.foldl
    (fun idxs pr => idxs.set pr.idx (some (pr.hint_type == HintType.green)))
    (List.replicate LENGTH (none : Option Bool))
  ⟨minc, maxc, indexes⟩

/-- The dict built by `Hint.parse_guess` from a successfully-read prompt list. -/
def buildHints (guess : List Prompt) : List (Char × Hint) :=
  (dedupFirst (guess.map Prompt.letter)).map (fun letter => (letter, mkLetterHint guess letter))

/-- Embedding of `Hint.parse_guess(word, colors)`: read the `LENGTH` prompts (errors become
`none`), then build the per-letter hint dict. -/
def parse_guess (word colors : List Char) : Option (List (Char × Hint)) :=
  (collectPrompts word colors (List.range LENGTH)).map buildHints

/-- Embedding of `Hint._merge_with`: tighten the count range, and per position take `self`'s
slot when `other`'s is `None`, else `other`'s. -/
def Hint.mergeWith (a b : Hint) : Hint :=
  ⟨max a.min_count b.min_count, min a.max_count b.max_count,
    (a.indexes.zip b.indexes).map (fun x =>
      match x.2 with
      | none => x.1
      | some v => some v)⟩

/-- Dictionary lookup in an association list (Python `d[k]` / `k in d`). -/
def lookupH (d : List (Char × Hint)) (c : Char) : Option Hint :=
  match d with
  | [] => none
  | (k, v) :: rest => if k = c then some v else lookupH rest c

/-- Embedding of `Hint.merge_hints`: start from a copy of `left_hints`; a letter only in
`right_hints` passes through, a letter in both is merged with `_merge_with`. -/
def mergeHints (left right : List (Char × Hint)) : List (Char × Hint) :=
  left.map (fun kv =>
    match lookupH right kv.1 with
    | none => kv
    | some b => (kv.1, kv.2.mergeWith b))
  ++ right.filter (fun kv => (lookupH left kv.1).isNone)

/-- Embedding of `Hint.check_word`: the count of `letter` in `word` must lie in
`[min_count, max_count]`, and every `some true` slot must hold `letter`,
every `some false` slot must not. -/
def check_word (h : Hint) (letter : Char) (word : List Char) : Bool :=
  (decide (h.min_count ≤ word.count letter) && decide (word.count letter ≤ h.max_count)) &&
  h.indexes.enum.all (fun p =>
    match p.2 with
    | some true => word.get? p.1 == some letter
    | some false => !(word.get? p.1 == some letter)
    | none => true)

/-- A word passes the filter iff it passes `check_word` for every letter of the
hint dict (the source applies the per-letter filters sequentially). -/
def filter_words (hints : List (Char × Hint)) (ws : List (List Char)) : List (List Char) :=
  hints.foldl (fun acc kv => acc.filter (fun w => check_word kv.2 kv.1 w)) ws

/-- Embedding of `GameInfo`: candidate words plus accumulated per-letter hints. -/
structure GameInfo where
  words : List (List Char)
  hints : List (Char × Hint)
deriving DecidableEq, Repr

/-- Embedding of `GameInfo.__init__`: stores its two arguments; it performs no validation. -/
def GameInfo.init (words : List (List Char)) (hints : List (Char × Hint)) : GameInfo :=
  ⟨words, hints⟩

/-- Embedding of `GameInfo.apply_hints`: merge the new guess hints into the current ones and
filter the current words. -/
def GameInfo.apply_hints (g : GameInfo) (guess : List (Char × Hint)) : GameInfo :=
  let new_hints := mergeHints g.hints guess
  let new_words := filter_words new_hints g.words
  ⟨new_words, new_hints⟩

/-- State-passing embedding of the method call `self.apply_hints(guess)`: the
method body contains no assignment to `self` (it copies `self.words` and
`merge_hints` copies `left_hints`), so the post-state of the receiver is the
receiver itself; the pair is (returned GameInfo, post-state of `self`). -/
def GameInfo.apply_hints_step (g : GameInfo) (guess : List (Char × Hint)) :
    GameInfo × GameInfo :=
  (g.apply_hints guess, g)

/-- Embedding of `GameInfo.apply_hypo_hint`: number of current words surviving the merged
hints. -/
def GameInfo.apply_hypo_hint (curr_hints : List (Char × Hint))
    (curr_words : List (List Char)) (guess : List (Char × Hint)) : Nat :=
  (filter_words (mergeHints curr_hints guess) curr_words).length

/-- All length-`n` strings over the feedback alphabet, the last position varying
fastest (`itertools.product`). -/
def feedbackStrings : Nat → List (List Char)
  | 0 => [[]]
  | n + 1 => ['y', 'b', 'g'].flatMap (fun c => (feedbackStrings n).map (fun t => c :: t))

/-- Embedding of `POSSIBLE_GUESS_RESULTS`: the 3^LENGTH synthetic feedback patterns. -/
def POSSIBLE_GUESS_RESULTS : List (List Char) := feedbackStrings LENGTH

/-- A `map` for `Option`-returning functions (a Python comprehension whose body
may raise). -/
def mapOpt (f : α → Option β) : List α → Option (List β)
  | [] => some []
  | a :: as =>
    match f a, mapOpt f as with
    | some b, some bs => some (b :: bs)
    | _, _ => none

/-- Embedding of `GameInfo.hypo_worst_hint`: the guess word paired with the maximum surviving
candidate count over all synthetic feedback patterns. -/
def GameInfo.hypo_worst_hint (curr_hints : List (Char × Hint))
    (curr_words : List (List Char)) (word : List Char) : Option (List Char × Nat) :=
  (mapOpt (fun gr => (parse_guess word gr).map (GameInfo.apply_hypo_hint curr_hints curr_words))
      POSSIBLE_GUESS_RESULTS).map
    (fun scores => (word, scores.foldl max 0))

/-- Python string `<` on character lists (lexicographic by code point, a proper
prefix is smaller). -/
def strLt : List Char → List Char → Bool
  | _, [] => false
  | [], _ :: _ => true
  | a :: as, b :: bs => if a < b then true else if b < a then false else strLt as bs

/-- The sort key `(r[1], -(r[0] in self.words), r[0])` of `suggest_guess`,
with `-(· in words)` encoded as `0` for members and `1` for non-members. -/
def GameInfo.mkKey (g : GameInfo) (r : List Char × Nat) : Nat × Nat × List Char :=
  (r.2, if g.words.contains r.1 then 0 else 1, r.1)

/-- Strict lexicographic order on the sort keys (Python tuple `<`). -/
def keyLt (x y : Nat × Nat × List Char) : Bool :=
  if x.1 < y.1 then true
  else if y.1 < x.1 then false
  else if x.2.1 < y.2.1 then true
  else if y.2.1 < x.2.1 then false
  else strLt x.2.2 y.2.2

/-- Embedding of `GameInfo.suggest_guess`: score every corpus word with `hypo_worst_hint` and
return the word of the key-minimal result (`min` of an empty sequence, i.e. an
empty corpus, is an error, modelled as `none`). -/
def GameInfo.suggest_guess (corpus : List (List Char)) (g : GameInfo) : Option (List Char) :=
  match mapOpt (GameInfo.hypo_worst_hint g.hints g.words) corpus with
  | none => none
  | some [] => none
  | some (r :: rs) =>
    some (rs.foldl (fun best r2 => if keyLt (g.mkKey r2) (g.mkKey best) then r2 else best) r).1

/-! ## Spec-side definitions -/

/-- Spec-side: the decoded feedback symbol at position `i` of the feedback
string. -/
def hintAt (colors : List Char) (i : Nat) : Option HintType :=
  (colors.get? i).bind charToHintType

/-- Spec-side: the positions (among `0..LENGTH-1`) where the guess word has the
letter `c`. -/
def guessPositions (word : List Char) (c : Char) : List Nat :=
  (List.range LENGTH).filter (fun i => word.get? i == some c)

/-- Spec-side `k`: how many positions of `c` in the guess are marked Exact or
Present. -/
def specK (word colors : List Char) (c : Char) : Nat :=
  ((guessPositions word c).filter (fun i =>
    hintAt colors i == some HintType.green || hintAt colors i == some HintType.yellow)).length

/-- Spec-side `m`: how many positions of `c` in the guess are marked Absent. -/
def specM (word colors : List Char) (c : Char) : Nat :=
  ((guessPositions word c).filter (fun i => hintAt colors i == some HintType.black)).length

/-- Modelled from the spec: initialization that reports an empty corpus as an
immediate configuration error.  The source `GameInfo.__init__` (embedded as
`GameInfo.init`) contains no such check; this definition exists only to be
compared with it. -/
def initChecked (words : List (List Char)) (hints : List (Char × Hint)) : Option GameInfo :=
  if words.isEmpty then none else some ⟨words, hints⟩

/-- The default prompt used to express a successfully read prompt list as a
`map` over the index range. -/
def promptOrDefault (word colors : List Char) (i : Nat) : Prompt :=
  (promptAt word colors i).getD ⟨0, ' ', HintType.black⟩

/-! ## Helper lemmas: prompts -/

theorem promptAt_facts {word colors : List Char} {i : Nat} {p : Prompt}
    (h : promptAt word colors i = some p) :
    word.get? i = some p.letter ∧ hintAt colors i = some p.hint_type ∧ p.idx = i := by
  unfold promptAt at h
  split at h
  · simp at h
  next c hw =>
    split at h
    · simp at h
    next col hc =>
      split at h
      · simp at h
      next ht hh =>
        simp only [Option.some.injEq] at h
        subst h
        refine ⟨hw, ?_, rfl⟩
        unfold hintAt
        rw [hc]
        simpa using hh

theorem collectPrompts_sound {word colors : List Char} :
    ∀ {l : List Nat} {ps : List Prompt}, collectPrompts word colors l = some ps →
      ps = l.map (promptOrDefault word colors) ∧
      ∀ i ∈ l, promptAt word colors i = some (promptOrDefault word colors i) := by
  intro l
  induction l with
  | nil =>
    intro ps h
    simp only [collectPrompts, Option.some.injEq] at h
    subst h
    simp
  | cons i is ih =>
    intro ps h
    simp only [collectPrompts] at h
    cases hp : promptAt word colors i with
    | none => rw [hp] at h; simp at h
    | some p =>
      rw [hp] at h
      cases hps : collectPrompts word colors is with
      | none => rw [hps] at h; simp at h
      | some ps' =>
        rw [hps] at h
        simp only [Option.some.injEq] at h
        subst h
        obtain ⟨h1, h2⟩ := ih hps
        have hpd : promptOrDefault word colors i = p := by
          simp [promptOrDefault, hp]
        constructor
        · simp [hpd, ← h1]
        · intro j hj
          rcases List.mem_cons.mp hj with rfl | hj
          · rw [hpd, hp]
          · exact h2 j hj

theorem collectPrompts_complete {word colors : List Char} :
    ∀ {l : List Nat}, (∀ i ∈ l, (promptAt word colors i).isSome) →
      collectPrompts word colors l = some (l.map (promptOrDefault word colors)) := by
  intro l
  induction l with
  | nil => intro _; simp [collectPrompts]
  | cons i is ih =>
    intro h
    have hi := h i (List.mem_cons_self i is)
    obtain ⟨p, hp⟩ := Option.isSome_iff_exists.mp hi
    have his := ih (fun j hj => h j (List.mem_cons_of_mem i hj))
    simp only [collectPrompts, hp, his, List.map_cons, Option.some.injEq]
    simp [promptOrDefault, hp]

theorem collectPrompts_fail {word colors : List Char} :
    ∀ {l : List Nat} {i : Nat}, i ∈ l → promptAt word colors i = none →
      collectPrompts word colors l = none := by
  intro l
  induction l with
  | nil => intro i h; simp at h
  | cons j js ih =>
    intro i hmem hnone
    rcases List.mem_cons.mp hmem with rfl | hmem
    · simp [collectPrompts, hnone]
    · simp only [collectPrompts]
      cases hp : promptAt word colors j with
      | none => rfl
      | some p => rw [ih hmem hnone]

theorem parse_guess_canonical {word colors : List Char} {hs : List (Char × Hint)}
    (h : parse_guess word colors = some hs) :
    hs = buildHints ((List.range LENGTH).map (promptOrDefault word colors)) ∧
    ∀ i < LENGTH, promptAt word colors i = some (promptOrDefault word colors i) := by
  unfold parse_guess at h
  cases hc : collectPrompts word colors (List.range LENGTH) with
  | none => rw [hc] at h; simp at h
  | some ps =>
    rw [hc] at h
    simp only [Option.map_some', Option.some.injEq] at h
    obtain ⟨h1, h2⟩ := collectPrompts_sound hc
    subst h
    exact ⟨by rw [h1], fun i hi => h2 i (List.mem_range.mpr hi)⟩

/-! ## Helper lemmas: association lists -/

theorem lookupH_append (l1 l2 : List (Char × Hint)) (c : Char) :
    lookupH (l1 ++ l2) c =
      match lookupH l1 c with
      | some v => some v
      | none => lookupH l2 c := by
  induction l1 with
  | nil => rfl
  | cons kv rest ih =>
    obtain ⟨k, v⟩ := kv
    rw [List.cons_append]
    by_cases hk : k = c
    · simp [lookupH, hk]
    · simp [lookupH, hk, ih]

theorem lookupH_mapVal (l : List (Char × Hint)) (F : Char → Hint → Hint) (c : Char) :
    lookupH (l.map (fun kv => (kv.1, F kv.1 kv.2))) c = (lookupH l c).map (F c) := by
  induction l with
  | nil => rfl
  | cons kv rest ih =>
    obtain ⟨k, v⟩ := kv
    rw [List.map_cons]
    by_cases hk : k = c
    · subst hk
      simp [lookupH]
    · simp [lookupH, hk, ih]

theorem lookupH_filterKeys (l : List (Char × Hint)) (p : Char → Bool) (c : Char) :
    lookupH (l.filter (fun kv => p kv.1)) c = if p c then lookupH l c else none := by
  induction l with
  | nil => simp [lookupH]
  | cons kv rest ih =>
    obtain ⟨k, v⟩ := kv
    rw [List.filter_cons]
    by_cases hk : k = c
    · subst hk
      by_cases hp : p k
      · simp [lookupH, hp]
      · simp [lookupH, hp, ih]
    · by_cases hp : p k
      · simp [lookupH, hp, hk, ih]
      · simp only [hp, Bool.false_eq_true, if_false]
        rw [ih]
        by_cases hpc : p c
        · simp [lookupH, hpc, hk]
        · simp [hpc]

theorem lookupH_mem {d : List (Char × Hint)} {c : Char} {h : Hint}
    (hl : lookupH d c = some h) : (c, h) ∈ d := by
  induction d with
  | nil => simp [lookupH] at hl
  | cons kv rest ih =>
    obtain ⟨k, v⟩ := kv
    by_cases hk : k = c
    · subst hk
      simp only [lookupH, if_pos, Option.some.injEq] at hl
      subst hl
      exact List.mem_cons_self _ _
    · simp only [lookupH, hk, if_false] at hl
      exact List.mem_cons_of_mem _ (ih hl)

theorem mem_lookupH {d : List (Char × Hint)} {c : Char} {h : Hint}
    (hnd : (d.map Prod.fst).Nodup) (hmem : (c, h) ∈ d) : lookupH d c = some h := by
  induction d with
  | nil => simp at hmem
  | cons kv rest ih =>
    obtain ⟨k, v⟩ := kv
    simp only [List.map_cons, List.nodup_cons] at hnd
    rcases List.mem_cons.mp hmem with heq | hmem'
    · have h1 : c = k := congrArg Prod.fst heq
      have h2 : h = v := congrArg Prod.snd heq
      subst h1
      subst h2
      simp [lookupH]
    · have hkc : ¬(k = c) := by
        intro hk
        subst hk
        exact hnd.1 (List.mem_map.mpr ⟨(k, h), hmem', rfl⟩)
      simp only [lookupH, hkc, if_false]
      exact ih hnd.2 hmem'

theorem lookupH_mergeHints (A B : List (Char × Hint)) (c : Char) :
    lookupH (mergeHints A B) c =
      match lookupH A c, lookupH B c with
      | some a, some b => some (a.mergeWith b)
      | some a, none => some a
      | none, ob => ob := by
  unfold mergeHints
  rw [lookupH_append]
  have hmap : (A.map fun kv =>
      match lookupH B kv.1 with
      | none => kv
      | some b => (kv.1, kv.2.mergeWith b)) =
      A.map (fun kv => (kv.1,
        match lookupH B kv.1 with
        | none => kv.2
        | some b => kv.2.mergeWith b)) := by
    apply List.map_congr_left
    intro kv _
    cases lookupH B kv.1 <;> rfl
  rw [hmap, lookupH_mapVal A (fun k v =>
    match lookupH B k with
    | none => v
    | some b => v.mergeWith b) c]
  rw [lookupH_filterKeys B (fun k => (lookupH A k).isNone) c]
  cases ha : lookupH A c with
  | none => simp [ha]
  | some a =>
    cases hb : lookupH B c with
    | none => simp [ha, hb]
    | some b => simp [ha, hb]

/-! ## Helper lemmas: the candidate filter -/

theorem mem_filter_words {hints : List (Char × Hint)} {ws : List (List Char)}
    {w : List Char} :
    w ∈ filter_words hints ws ↔ w ∈ ws ∧ ∀ kv ∈ hints, check_word kv.2 kv.1 w = true := by
  unfold filter_words
  induction hints generalizing ws with
  | nil => simp
  | cons kv rest ih =>
    rw [List.foldl_cons]
    rw [ih]
    constructor
    · rintro ⟨hmem, hrest⟩
      obtain ⟨hw, hkv⟩ := List.mem_filter.mp hmem
      exact ⟨hw, by
        intro kv' hkv'
        rcases List.mem_cons.mp hkv' with rfl | hkv'
        · exact hkv
        · exact hrest kv' hkv'⟩
    · rintro ⟨hw, hall⟩
      refine ⟨List.mem_filter.mpr ⟨hw, hall kv (List.mem_cons_self kv rest)⟩, ?_⟩
      intro kv' hkv'
      exact hall kv' (List.mem_cons_of_mem kv hkv')

theorem mergeWith_slot (a b : Hint) (i : Nat) (sa sb : Option Bool)
    (ha : a.indexes.get? i = some sa) (hb : b.indexes.get? i = some sb) :
    (a.mergeWith b).indexes.get? i =
      some (match sb with | none => sa | some v => some v) := by
  show ((a.indexes.zip b.indexes).map _).get? i = _
  rw [List.get?_map, (List.get?_zip_eq_some _ _ (sa, sb) i).mpr ⟨ha, hb⟩]
  cases sb <;> rfl

/-! ## Claim C3: Hint and HintSet merge rules -/

/-- C3: merging two Hints yields `min_count = max` of the inputs' `min_count`s,
`max_count = min` of the inputs' `max_count`s, and at each position the history
slot exactly when the new guess's slot is Unknown, else the new slot; merging
two HintSets unions the keys, passing a one-sided letter through unchanged and
merging a two-sided letter by the Hint rule (both inputs are values and are
unchanged by construction). -/
theorem merge_hint_rules :
    (∀ a b : Hint, (a.mergeWith b).min_count = max a.min_count b.min_count ∧
      (a.mergeWith b).max_count = min a.max_count b.max_count) ∧
    (∀ a b : Hint, ∀ i : Nat, ∀ sa sb : Option Bool,
      a.indexes.get? i = some sa → b.indexes.get? i = some sb →
      (a.mergeWith b).indexes.get? i =
        some (match sb with | none => sa | some v => some v)) ∧
    (∀ A B : List (Char × Hint), ∀ c : Char,
      lookupH (mergeHints A B) c =
        match lookupH A c, lookupH B c with
        | some a, some b => some (a.mergeWith b)
        | some a, none => some a
        | none, ob => ob) := by
  refine ⟨fun a b => ⟨rfl, rfl⟩, ?_, fun A B c => lookupH_mergeHints A B c⟩
  intro a b i sa sb ha hb
  cases sb with
  | none => exact mergeWith_slot a b i sa none ha hb
  | some v => exact mergeWith_slot a b i sa (some v) ha hb

/-- Witness for `merge_hint_rules` at concrete hints and hint sets. -/
theorem merge_hint_rules_witness :
    ((⟨1, 4, [some true, none]⟩ : Hint).mergeWith ⟨2, 3, [none, some false]⟩).min_count =
      max 1 2 ∧
    ((⟨1, 4, [some true, none]⟩ : Hint).mergeWith ⟨2, 3, [none, some false]⟩).indexes.get? 0 =
      some (some true) ∧
    lookupH (mergeHints [('a', ⟨1, 4, [some true, none]⟩)]
        [('b', ⟨2, 3, [none, some false]⟩)]) 'b' =
      some ⟨2, 3, [none, some false]⟩ := by
  refine ⟨(merge_hint_rules.1 ⟨1, 4, [some true, none]⟩ ⟨2, 3, [none, some false]⟩).1, ?_, ?_⟩
  · exact merge_hint_rules.2.1 ⟨1, 4, [some true, none]⟩ ⟨2, 3, [none, some false]⟩ 0
      (some true) none rfl rfl
  · rw [merge_hint_rules.2.2]
    rfl

/-! ## Claim C7: empty corpus at initialization -/

/-- C7 counterexample: constructing the initial state from an empty corpus is
not reported as an error — `GameInfo.__init__` performs no check and returns a
normal state, whereas the spec-modelled checked initializer reports `none`. -/
theorem empty_corpus_cex :
    GameInfo.init [] [] = ⟨[], []⟩ ∧ initChecked [] [] = none :=
  ⟨rfl, rfl⟩

/-- C7 amended: initialization stores its arguments unvalidated — an empty
corpus is accepted silently — and the failure only surfaces later, when
`suggest_guess` has to take the minimum of an empty result sequence. -/
theorem empty_corpus_amended :
    (∀ (ws : List (List Char)) (hs : List (Char × Hint)), GameInfo.init ws hs = ⟨ws, hs⟩) ∧
    (∀ g : GameInfo, GameInfo.suggest_guess [] g = none) :=
  ⟨fun _ _ => rfl, fun _ => rfl⟩

/-! ## Claim C8: apply_hints does not mutate its receiver -/

/-- C8: `apply_hints` returns a new GameInfo whose fields are computed from the
receiver's fields, and the receiver's hint mapping and candidate word list are
unchanged (the method body assigns nothing to `self`). -/
theorem apply_hints_frame :
    ∀ (g : GameInfo) (guess : List (Char × Hint)),
      (g.apply_hints_step guess).2.hints = g.hints ∧
      (g.apply_hints_step guess).2.words = g.words ∧
      (g.apply_hints_step guess).1 =
        ⟨filter_words (mergeHints g.hints guess) g.words, mergeHints g.hints guess⟩ :=
  fun _ _ => ⟨rfl, rfl, rfl⟩

/-! ## Helper lemmas: counting -/

theorem countP_or_disjoint (l : List α) (q r : α → Bool)
    (h : ∀ a, ¬(q a = true ∧ r a = true)) :
    l.countP (fun a => q a || r a) = l.countP q + l.countP r := by
  induction l with
  | nil => simp
  | cons a as ih =>
    simp only [List.countP_cons, ih]
    cases hq : q a with
    | false => cases hr : r a <;> simp [hq, hr] <;> omega
    | true =>
      cases hr : r a with
      | false => simp [hq, hr]; omega
      | true => exact absurd ⟨hq, hr⟩ (h a)

theorem promptOrDefault_facts {word colors : List Char} {i : Nat}
    (hok : promptAt word colors i = some (promptOrDefault word colors i)) :
    word.get? i = some (promptOrDefault word colors i).letter ∧
    hintAt colors i = some (promptOrDefault word colors i).hint_type ∧
    (promptOrDefault word colors i).idx = i :=
  promptAt_facts hok

theorem mkLetterHint_min_eq (word colors : List Char)
    (hok : ∀ i < LENGTH, promptAt word colors i = some (promptOrDefault word colors i))
    (c : Char) :
    (mkLetterHint ((List.range LENGTH).map (promptOrDefault word colors)) c).min_count =
      specK word colors c := by
  unfold mkLetterHint specK guessPositions
  simp only [← List.countP_eq_length_filter, List.countP_filter, List.countP_map]
  have hsplit :
      (List.range LENGTH).countP (fun i =>
        (hintAt colors i == some HintType.green || hintAt colors i == some HintType.yellow) &&
          (word.get? i == some c)) =
      (List.range LENGTH).countP (fun i =>
        (hintAt colors i == some HintType.green) && (word.get? i == some c)) +
      (List.range LENGTH).countP (fun i =>
        (hintAt colors i == some HintType.yellow) && (word.get? i == some c)) := by
    rw [← countP_or_disjoint]
    · apply List.countP_congr
      intro i _
      cases hintAt colors i == some HintType.green <;>
        cases hintAt colors i == some HintType.yellow <;>
          cases word.get? i == some c <;> simp
    · intro i hqr
      obtain ⟨hq, hr⟩ := hqr
      simp only [Bool.and_eq_true, beq_iff_eq] at hq hr
      rw [hq.1] at hr
      simpa using hr.1
  rw [hsplit]
  congr 1
  · apply List.countP_congr
    intro i hi
    obtain ⟨hw, hh, _⟩ := promptOrDefault_facts (hok i (List.mem_range.mp hi))
    simp only [Function.comp, hw, hh, Bool.and_eq_true, beq_iff_eq, Option.some.injEq]
  · apply List.countP_congr
    intro i hi
    obtain ⟨hw, hh, _⟩ := promptOrDefault_facts (hok i (List.mem_range.mp hi))
    simp only [Function.comp, hw, hh, Bool.and_eq_true, beq_iff_eq, Option.some.injEq]

theorem mkLetterHint_black_eq (word colors : List Char)
    (hok : ∀ i < LENGTH, promptAt word colors i = some (promptOrDefault word colors i))
    (c : Char) :
    ((((List.range LENGTH).map (promptOrDefault word colors)).filter
        (fun pr => pr.letter == c)).filter
      (fun pr => pr.hint_type == HintType.black)).length = specM word colors c := by
  unfold specM guessPositions
  simp only [← List.countP_eq_length_filter, List.countP_filter, List.countP_map]
  apply List.countP_congr
  intro i hi
  obtain ⟨hw, hh, _⟩ := promptOrDefault_facts (hok i (List.mem_range.mp hi))
  simp only [Function.comp, hw, hh, Bool.and_eq_true, beq_iff_eq, Option.some.injEq]

theorem mkLetterHint_max_eq (word colors : List Char)
    (hok : ∀ i < LENGTH, promptAt word colors i = some (promptOrDefault word colors i))
    (c : Char) :
    (mkLetterHint ((List.range LENGTH).map (promptOrDefault word colors)) c).max_count =
      (if specM word colors c ≠ 0 then specK word colors c else LENGTH) := by
  have hmin := mkLetterHint_min_eq word colors hok c
  have hblack := mkLetterHint_black_eq word colors hok c
  unfold mkLetterHint at hmin ⊢
  simp only at hmin ⊢
  rw [hblack, hmin]

/-! ## Helper lemmas: position slots -/

theorem find?_eq_some_of_unique {l : List α} {p : α → Bool} {x : α}
    (hx : x ∈ l) (hpx : p x = true) (huniq : ∀ y ∈ l, p y = true → y = x) :
    l.find? p = some x := by
  induction l with
  | nil => simp at hx
  | cons a as ih =>
    by_cases hpa : p a = true
    · rw [List.find?_cons_of_pos _ hpa, huniq a (List.mem_cons_self a as) hpa]
    · rw [List.find?_cons_of_neg _ hpa]
      rcases List.mem_cons.mp hx with rfl | hx'
      · exact absurd hpx hpa
      · exact ih hx' (fun y hy hpy => huniq y (List.mem_cons_of_mem a hy) hpy)

theorem foldl_set_get? (l : List Prompt) (init : List (Option Bool)) (j : Nat)
    (hdisj : l.Pairwise (fun a b => a.idx ≠ b.idx)) :
    (l.foldl (fun idxs pr => idxs.set pr.idx (some (pr.hint_type == HintType.green)))
        init).get? j =
      match l.find? (fun pr => pr.idx == j) with
      | some pr =>
        if j < init.length then some (some (pr.hint_type == HintType.green)) else init.get? j
      | none => init.get? j := by
  induction l generalizing init with
  | nil => rfl
  | cons p rest ih =>
    rw [List.foldl_cons]
    obtain ⟨hp, hrest⟩ := List.pairwise_cons.mp hdisj
    by_cases hpj : p.idx = j
    · have hfind : List.find? (fun pr => pr.idx == j) (p :: rest) = some p :=
        List.find?_cons_of_pos _ (by simpa using hpj)
      rw [hfind]
      have hrestnone : List.find? (fun pr => pr.idx == j) rest = none := by
        rw [List.find?_eq_none]
        intro x hx
        simp only [beq_iff_eq]
        intro hxj
        exact (hp x hx) (by rw [hpj, hxj])
      rw [ih _ hrest, hrestnone]
      by_cases hlen : j < init.length
      · rw [hpj, List.get?_set_eq_of_lt _ hlen]
        simp [hlen]
      · rw [List.set_eq_of_length_le (by omega)]
        simp [hlen]
    · have hfind : List.find? (fun pr => pr.idx == j) (p :: rest) =
          List.find? (fun pr => pr.idx == j) rest :=
        List.find?_cons_of_neg _ (by simpa using hpj)
      rw [hfind, ih _ hrest]
      cases hf : List.find? (fun pr => pr.idx == j) rest with
      | some pr =>
        rw [List.length_set, List.get?_set_ne _ _ hpj]
      | none =>
        rw [List.get?_set_ne _ _ hpj]

theorem mkLetterHint_indexes_eq (word colors : List Char)
    (hok : ∀ i < LENGTH, promptAt word colors i = some (promptOrDefault word colors i))
    (c : Char) (j : Nat) (hj : j < LENGTH) :
    (mkLetterHint ((List.range LENGTH).map (promptOrDefault word colors)) c).indexes.get? j =
      some (if word.get? j = some c
        then some ((promptOrDefault word colors j).hint_type == HintType.green)
        else none) := by
  have hmemchar : ∀ pr ∈ ((List.range LENGTH).map (promptOrDefault word colors)).filter
      (fun pr => pr.letter == c), ∃ i < LENGTH, pr = promptOrDefault word colors i ∧
        pr.idx = i ∧ pr.letter = c := by
    intro pr hpr
    obtain ⟨hmem, hlet⟩ := List.mem_filter.mp hpr
    obtain ⟨i, hi, rfl⟩ := List.mem_map.mp hmem
    have hiL : i < LENGTH := List.mem_range.mp hi
    exact ⟨i, hiL, rfl, (promptOrDefault_facts (hok i hiL)).2.2, by simpa using hlet⟩
  have hpair : (((List.range LENGTH).map (promptOrDefault word colors)).filter
      (fun pr => pr.letter == c)).Pairwise (fun a b => a.idx ≠ b.idx) := by
    apply List.Pairwise.filter
    rw [List.pairwise_map]
    apply List.Pairwise.imp_of_mem ?_ (List.pairwise_lt_range LENGTH)
    intro i1 i2 h1 h2 hlt
    rw [(promptOrDefault_facts (hok i1 (List.mem_range.mp h1))).2.2,
      (promptOrDefault_facts (hok i2 (List.mem_range.mp h2))).2.2]
    omega
  unfold mkLetterHint
  simp only
  rw [foldl_set_get? _ _ _ hpair]
  have hwj := (promptOrDefault_facts (hok j hj)).1
  by_cases hc : (promptOrDefault word colors j).letter = c
  · have hfind : (((List.range LENGTH).map (promptOrDefault word colors)).filter
        (fun pr => pr.letter == c)).find? (fun pr => pr.idx == j) =
        some (promptOrDefault word colors j) := by
      apply find?_eq_some_of_unique
      · apply List.mem_filter.mpr
        refine ⟨List.mem_map.mpr ⟨j, List.mem_range.mpr hj, rfl⟩, by simpa using hc⟩
      · simp [(promptOrDefault_facts (hok j hj)).2.2]
      · intro y hy hpy
        obtain ⟨i, hiL, rfl, hidx, _⟩ := hmemchar y hy
        have : i = j := by simpa [hidx] using hpy
        rw [this]
    rw [hfind]
    have hlen : j < (List.replicate LENGTH (none : Option Bool)).length := by
      simpa using hj
    have hcond : word.get? j = some c := by rw [hwj, hc]
    rw [List.get?_eq_getElem?] at hcond
    simp [hj, hcond]
  · have hfind : (((List.range LENGTH).map (promptOrDefault word colors)).filter
        (fun pr => pr.letter == c)).find? (fun pr => pr.idx == j) = none := by
      rw [List.find?_eq_none]
      intro y hy
      obtain ⟨i, hiL, rfl, hidx, hlet⟩ := hmemchar y hy
      simp only [beq_iff_eq, hidx]
      intro hij
      apply hc
      rw [← hij]
      exact hlet
    rw [hfind, if_neg (by rw [hwj]; simpa using hc)]
    simp [List.get?_eq_getElem?, List.getElem?_replicate, hj]

/-! ## Helper lemmas: buildHints lookup -/

theorem mem_dedupFirst (xs : List Char) (c : Char) : c ∈ dedupFirst xs ↔ c ∈ xs := by
  induction xs with
  | nil => simp [dedupFirst]
  | cons x rest ih =>
    simp only [dedupFirst, List.mem_cons, List.mem_filter]
    constructor
    · rintro (rfl | ⟨hc, _⟩)
      · exact Or.inl rfl
      · exact Or.inr (ih.mp hc)
    · rintro (rfl | hc)
      · exact Or.inl rfl
      · by_cases hxc : c = x
        · exact Or.inl hxc
        · exact Or.inr ⟨ih.mpr hc, by simpa using hxc⟩

theorem lookupH_mapKeyFn (letters : List Char) (F : Char → Hint) (c : Char) :
    lookupH (letters.map (fun l => (l, F l))) c = if c ∈ letters then some (F c) else none := by
  induction letters with
  | nil => simp [lookupH]
  | cons k rest ih =>
    rw [List.map_cons]
    by_cases hk : k = c
    · subst hk
      simp [lookupH]
    · have hck : ¬(c = k) := fun h => hk h.symm
      simp [lookupH, hk, ih, List.mem_cons, hck]

theorem lookupH_buildHints (ps : List Prompt) (c : Char) :
    lookupH (buildHints ps) c =
      if c ∈ ps.map Prompt.letter then some (mkLetterHint ps c) else none := by
  unfold buildHints
  rw [lookupH_mapKeyFn]
  by_cases hc : c ∈ ps.map Prompt.letter
  · rw [if_pos ((mem_dedupFirst _ c).mpr hc), if_pos hc]
  · rw [if_neg (fun h => hc ((mem_dedupFirst _ c).mp h)), if_neg hc]

theorem letter_mem_of_get? {word colors : List Char} {c : Char}
    (hok : ∀ i < LENGTH, promptAt word colors i = some (promptOrDefault word colors i))
    (hc : ∃ i < LENGTH, word.get? i = some c) :
    c ∈ ((List.range LENGTH).map (promptOrDefault word colors)).map Prompt.letter := by
  obtain ⟨i, hiL, hwi⟩ := hc
  have hfact := (promptOrDefault_facts (hok i hiL)).1
  rw [hfact] at hwi
  apply List.mem_map.mpr
  refine ⟨promptOrDefault word colors i, List.mem_map.mpr
    ⟨i, List.mem_range.mpr hiL, rfl⟩, ?_⟩
  exact (Option.some.injEq _ _).mp hwi.symm |>.symm

/-! ## Claim C2: count range derived from a guess -/

/-- C2: for a successfully parsed (word, feedback) pair and every letter `c`
occurring among the first `LENGTH` positions of the guess, the Hint derived for
`c` has `min_count` equal to `k`, the number of positions of `c` marked Exact
or Present, and `max_count` equal to `k` when at least one position of `c` is
marked Absent and to `LENGTH` otherwise. -/
theorem parse_guess_count_rule (word colors : List Char) (hs : List (Char × Hint))
    (hp : parse_guess word colors = some hs) (c : Char)
    (hc : ∃ i < LENGTH, word.get? i = some c) :
    ∃ h, lookupH hs c = some h ∧
      h.min_count = specK word colors c ∧
      h.max_count = (if specM word colors c ≠ 0 then specK word colors c else LENGTH) := by
  obtain ⟨hhs, hok⟩ := parse_guess_canonical hp
  subst hhs
  refine ⟨mkLetterHint ((List.range LENGTH).map (promptOrDefault word colors)) c, ?_,
    mkLetterHint_min_eq word colors hok c, mkLetterHint_max_eq word colors hok c⟩
  rw [lookupH_buildHints, if_pos (letter_mem_of_get? hok hc)]

/-- Witness for `parse_guess_count_rule`: the spec's own duplicate-letter
example, guess "sassy" with colors "gbbyb" and letter s. -/
theorem parse_guess_count_rule_witness :
    ∃ h, lookupH [('s', ⟨2, 2, [some true, none, some false, some false, none]⟩),
        ('a', ⟨0, 0, [none, some false, none, none, none]⟩),
        ('y', ⟨0, 0, [none, none, none, none, some false]⟩)] 's' = some h ∧
      h.min_count = specK ("sassy".toList) ("gbbyb".toList) 's' ∧
      h.max_count = (if specM ("sassy".toList) ("gbbyb".toList) 's' ≠ 0
        then specK ("sassy".toList) ("gbbyb".toList) 's' else LENGTH) :=
  parse_guess_count_rule ("sassy".toList) ("gbbyb".toList) _ (by decide) 's'
    ⟨0, by decide, by decide⟩

/-! ## Claim C10: positional slots derived from a guess -/

/-- C10: for a successfully parsed (word, feedback) pair and every letter `c`
occurring in the guess, the derived Hint's slot at position `j` is MustBe
exactly when `c` occupies `j` and `j` is marked Exact, MustNotBe when `c`
occupies `j` and `j` is marked Present or Absent, and Unknown exactly when `c`
does not occupy `j`. -/
theorem parse_guess_slot_rule (word colors : List Char) (hs : List (Char × Hint))
    (hp : parse_guess word colors = some hs) (c : Char)
    (hc : ∃ i < LENGTH, word.get? i = some c) :
    ∃ h, lookupH hs c = some h ∧ ∀ j < LENGTH,
      h.indexes.get? j =
        some (if word.get? j = some c
          then some (hintAt colors j == some HintType.green)
          else none) := by
  obtain ⟨hhs, hok⟩ := parse_guess_canonical hp
  subst hhs
  refine ⟨mkLetterHint ((List.range LENGTH).map (promptOrDefault word colors)) c, ?_, ?_⟩
  · rw [lookupH_buildHints, if_pos (letter_mem_of_get? hok hc)]
  · intro j hj
    rw [mkLetterHint_indexes_eq word colors hok c j hj]
    by_cases hcj : word.get? j = some c
    · rw [if_pos hcj, if_pos hcj]
      have hfact := (promptOrDefault_facts (hok j hj)).2.1
      rw [hfact]
      rfl
    · rw [if_neg hcj, if_neg hcj]

/-- Witness for `parse_guess_slot_rule`: guess "sassy", colors "gbbyb",
letter s — position 0 is MustBe, positions 2 and 3 (one Absent, one Present)
are MustNotBe, positions 1 and 4 are Unknown. -/
theorem parse_guess_slot_rule_witness :
    ∃ h, lookupH [('s', ⟨2, 2, [some true, none, some false, some false, none]⟩),
        ('a', ⟨0, 0, [none, some false, none, none, none]⟩),
        ('y', ⟨0, 0, [none, none, none, none, some false]⟩)] 's' = some h ∧
      ∀ j < LENGTH,
        h.indexes.get? j =
          some (if ("sassy".toList).get? j = some 's'
            then some (hintAt ("gbbyb".toList) j == some HintType.green)
            else none) :=
  parse_guess_slot_rule ("sassy".toList) ("gbbyb".toList) _ (by decide) 's'
    ⟨0, by decide, by decide⟩

/-! ## Helper lemmas: the all-green feedback pattern -/

theorem count_eq_countP_range (w : List Char) (c : Char) :
    w.count c = (List.range w.length).countP (fun i => w.get? i == some c) := by
  induction w with
  | nil => simp
  | cons a l ih =>
    rw [List.count_cons, List.length_cons, List.range_succ_eq_map, List.countP_cons,
      List.countP_map]
    have hcomp : ((fun i => (a :: l).get? i == some c) ∘ Nat.succ) =
        (fun i => l.get? i == some c) := by
      funext i
      rfl
    rw [hcomp, ← ih]
    rfl

theorem hintAt_allgreen {j : Nat} (hj : j < LENGTH) :
    hintAt (List.replicate LENGTH 'g') j = some HintType.green := by
  unfold hintAt
  rw [List.get?_eq_getElem?, List.getElem?_replicate, if_pos hj]
  rfl

theorem specK_allgreen (w : List Char) (c : Char) (hw : w.length = LENGTH) :
    specK w (List.replicate LENGTH 'g') c = w.count c := by
  unfold specK guessPositions
  rw [← List.countP_eq_length_filter, List.countP_filter]
  rw [count_eq_countP_range, hw]
  apply List.countP_congr
  intro i hi
  have hiL : i < LENGTH := List.mem_range.mp hi
  rw [hintAt_allgreen hiL]
  simp

theorem specM_allgreen (w : List Char) (c : Char) :
    specM w (List.replicate LENGTH 'g') c = 0 := by
  unfold specM guessPositions
  rw [← List.countP_eq_length_filter, List.countP_filter]
  rw [List.countP_eq_zero]
  intro i hi
  rw [hintAt_allgreen (List.mem_range.mp hi)]
  simp

theorem mem_buildHints_eq {ps : List Prompt} {c : Char} {h : Hint}
    (hmem : (c, h) ∈ buildHints ps) : h = mkLetterHint ps c := by
  unfold buildHints at hmem
  obtain ⟨l, _, heq⟩ := List.mem_map.mp hmem
  have h1 : l = c := congrArg Prod.fst heq
  have h2 : mkLetterHint ps l = h := congrArg Prod.snd heq
  rw [← h2, h1]

theorem foldl_set_length (l : List Prompt) (init : List (Option Bool)) :
    (l.foldl (fun idxs pr => idxs.set pr.idx (some (pr.hint_type == HintType.green)))
        init).length = init.length := by
  induction l generalizing init with
  | nil => rfl
  | cons p rest ih =>
    rw [List.foldl_cons, ih, List.length_set]

theorem mkLetterHint_indexes_length (ps : List Prompt) (c : Char) :
    (mkLetterHint ps c).indexes.length = LENGTH := by
  unfold mkLetterHint
  simp only
  rw [foldl_set_length, List.length_replicate]

/-! ## Claim C9: self-consistency under all-green feedback -/

/-- C9: a word `w` of length `LENGTH` belonging to a word set survives
filtering that set by the hints parsed from `w` with the all-Exact feedback
pattern. -/
theorem self_consistency_retains (w : List Char) (W : List (List Char))
    (hw : w.length = LENGTH) (hmem : w ∈ W) :
    ∃ hs, parse_guess w (List.replicate LENGTH 'g') = some hs ∧
      w ∈ filter_words hs W := by
  have hsome : ∀ i ∈ List.range LENGTH,
      (promptAt w (List.replicate LENGTH 'g') i).isSome = true := by
    intro i hi
    have hiL : i < LENGTH := List.mem_range.mp hi
    obtain ⟨ci, hci⟩ : ∃ ci, w.get? i = some ci := by
      cases hgi : w.get? i with
      | none => exact absurd (List.get?_eq_none.mp hgi) (by omega)
      | some ci => exact ⟨ci, rfl⟩
    unfold promptAt
    rw [hci, List.get?_eq_getElem?, List.getElem?_replicate, if_pos hiL]
    rfl
  have hcollect := collectPrompts_complete hsome
  have hok : ∀ i < LENGTH, promptAt w (List.replicate LENGTH 'g') i =
      some (promptOrDefault w (List.replicate LENGTH 'g') i) := by
    intro i hiL
    have hs := hsome i (List.mem_range.mpr hiL)
    cases hp : promptAt w (List.replicate LENGTH 'g') i with
    | none => rw [hp] at hs; simp at hs
    | some p => simp [promptOrDefault, hp]
  refine ⟨buildHints ((List.range LENGTH).map
    (promptOrDefault w (List.replicate LENGTH 'g'))), ?_, ?_⟩
  · unfold parse_guess
    rw [hcollect]
    rfl
  · apply mem_filter_words.mpr
    refine ⟨hmem, ?_⟩
    rintro ⟨c, h⟩ hkv
    have hh : h = mkLetterHint ((List.range LENGTH).map
        (promptOrDefault w (List.replicate LENGTH 'g'))) c := mem_buildHints_eq hkv
    subst hh
    unfold check_word
    simp only [Bool.and_eq_true]
    refine ⟨⟨?_, ?_⟩, ?_⟩
    · rw [mkLetterHint_min_eq _ _ hok c, specK_allgreen w c hw]
      simp
    · rw [mkLetterHint_max_eq _ _ hok c, specM_allgreen w c, if_neg (by simp)]
      have hle : w.count c ≤ LENGTH := by
        rw [← hw]
        exact List.count_le_length c w
      simpa using hle
    · apply List.all_eq_true.mpr
      rintro ⟨j, slot⟩ hjs
      have hget := List.mem_enum_iff_get?.mp hjs
      have hjL : j < LENGTH := by
        by_contra hge
        rw [List.get?_eq_none.mpr (by rw [mkLetterHint_indexes_length]; omega)] at hget
        exact Option.noConfusion hget
      have hval := mkLetterHint_indexes_eq w (List.replicate LENGTH 'g') hok c j hjL
      rw [hget] at hval
      have hslot : slot = (if w.get? j = some c
          then some ((promptOrDefault w (List.replicate LENGTH 'g') j).hint_type ==
            HintType.green)
          else none) := (Option.some.injEq _ _).mp hval
      by_cases hcj : w.get? j = some c
      · rw [if_pos hcj] at hslot
        have hg : (promptOrDefault w (List.replicate LENGTH 'g') j).hint_type =
            HintType.green := by
          have hfact := (promptOrDefault_facts (hok j hjL)).2.1
          rw [hintAt_allgreen hjL] at hfact
          exact ((Option.some.injEq _ _).mp hfact).symm
        rw [hg] at hslot
        simp only [beq_self_eq_true] at hslot
        rw [hslot]
        simpa using hcj
      · rw [if_neg hcj] at hslot
        rw [hslot]

/-- Witness for `self_consistency_retains`: "angle" survives filtering by its
own all-green hints. -/
theorem self_consistency_retains_witness :
    ∃ hs, parse_guess ("angle".toList) (List.replicate LENGTH 'g') = some hs ∧
      ("angle".toList) ∈ filter_words hs [("angle".toList), ("apple".toList)] :=
  self_consistency_retains ("angle".toList) [("angle".toList), ("apple".toList)]
    (by decide) (by decide)

/-! ## Claim C5: the count-range invariant -/

/-- C5 counterexample: merging the hint for letter a parsed from guess "aaaaa"
with all-Absent feedback (min = max = 0) and the hint parsed from the same
guess with all-Exact feedback (min = max = 5) — a merge the hypothetical
search performs — produces min_count = 5 > max_count = 0, violating
`min_count ≤ max_count`. -/
theorem hint_invariant_cex :
    parse_guess ("aaaaa".toList) ("bbbbb".toList) =
      some [('a', ⟨0, 0, [some false, some false, some false, some false, some false]⟩)] ∧
    parse_guess ("aaaaa".toList) ("ggggg".toList) =
      some [('a', ⟨5, 5, [some true, some true, some true, some true, some true]⟩)] ∧
    ¬((⟨0, 0, [some false, some false, some false, some false, some false]⟩ : Hint).mergeWith
          ⟨5, 5, [some true, some true, some true, some true, some true]⟩).min_count ≤
        ((⟨0, 0, [some false, some false, some false, some false, some false]⟩ : Hint).mergeWith
          ⟨5, 5, [some true, some true, some true, some true, some true]⟩).max_count := by
  decide

theorem mkLetterHint_counts_le (ps : List Prompt) (c : Char) (hlen : ps.length = LENGTH) :
    (mkLetterHint ps c).min_count ≤ (mkLetterHint ps c).max_count ∧
    (mkLetterHint ps c).max_count ≤ LENGTH := by
  unfold mkLetterHint
  simp only
  have hminle : ((ps.filter (fun pr => pr.letter == c)).filter
        (fun pr => pr.hint_type == HintType.green)).length
      + ((ps.filter (fun pr => pr.letter == c)).filter
        (fun pr => pr.hint_type == HintType.yellow)).length ≤ LENGTH := by
    rw [← List.countP_eq_length_filter, ← List.countP_eq_length_filter, ← countP_or_disjoint]
    · refine le_trans (List.countP_le_length _) (le_trans (List.length_filter_le _ _) ?_)
      omega
    · intro pr hpr
      obtain ⟨hg, hy⟩ := hpr
      simp only [beq_iff_eq] at hg hy
      rw [hg] at hy
      exact HintType.noConfusion hy
  constructor
  · split
    · exact le_refl _
    · exact hminle
  · split
    · exact hminle
    · exact le_refl _

/-- C5 corrected: every Hint derived by `parse_guess` satisfies
`0 ≤ min_count ≤ max_count ≤ LENGTH`; a Hint produced by merging two Hints
that each satisfy the invariant has `min_count ≤ LENGTH` and
`max_count ≤ LENGTH`, and satisfies `min_count ≤ max_count` provided the two
count ranges overlap (merging hints with disjoint ranges — contradictory
feedback — yields `min_count > max_count`). -/
theorem hint_invariant_amended :
    (∀ (word colors : List Char) (hs : List (Char × Hint)) (c : Char) (h : Hint),
      parse_guess word colors = some hs → (c, h) ∈ hs →
      h.min_count ≤ h.max_count ∧ h.max_count ≤ LENGTH)
    ∧ (∀ a b : Hint, a.min_count ≤ a.max_count → a.max_count ≤ LENGTH →
        b.min_count ≤ b.max_count → b.max_count ≤ LENGTH →
        (a.mergeWith b).min_count ≤ LENGTH ∧ (a.mergeWith b).max_count ≤ LENGTH ∧
        (a.min_count ≤ b.max_count → b.min_count ≤ a.max_count →
          (a.mergeWith b).min_count ≤ (a.mergeWith b).max_count)) := by
  constructor
  · intro word colors hs c h hp hmem
    obtain ⟨hhs, _⟩ := parse_guess_canonical hp
    subst hhs
    have hh := mem_buildHints_eq hmem
    subst hh
    exact mkLetterHint_counts_le _ c (by simp)
  · intro a b h1 h2 h3 h4
    refine ⟨?_, ?_, fun h5 h6 => ?_⟩ <;> simp only [Hint.mergeWith] <;> omega

/-- Witness for `hint_invariant_amended` at concrete hints: the parsed hint for
s in the "sassy" example, and a merge of two overlapping hints. -/
theorem hint_invariant_amended_witness :
    ((⟨2, 2, [some true, none, some false, some false, none]⟩ : Hint).min_count ≤
        (⟨2, 2, [some true, none, some false, some false, none]⟩ : Hint).max_count ∧
      (⟨2, 2, [some true, none, some false, some false, none]⟩ : Hint).max_count ≤ LENGTH) ∧
    ((⟨1, 3, [none]⟩ : Hint).mergeWith ⟨2, 4, [none]⟩).min_count ≤ LENGTH ∧
    ((⟨1, 3, [none]⟩ : Hint).mergeWith ⟨2, 4, [none]⟩).max_count ≤ LENGTH ∧
    ((⟨1, 3, [none]⟩ : Hint).mergeWith ⟨2, 4, [none]⟩).min_count ≤
      ((⟨1, 3, [none]⟩ : Hint).mergeWith ⟨2, 4, [none]⟩).max_count := by
  refine ⟨hint_invariant_amended.1 ("sassy".toList) ("gbbyb".toList)
    [('s', ⟨2, 2, [some true, none, some false, some false, none]⟩),
     ('a', ⟨0, 0, [none, some false, none, none, none]⟩),
     ('y', ⟨0, 0, [none, none, none, none, some false]⟩)] 's'
    ⟨2, 2, [some true, none, some false, some false, none]⟩ (by decide) (by decide), ?_⟩
  have ht := hint_invariant_amended.2 ⟨1, 3, [none]⟩ ⟨2, 4, [none]⟩
    (by decide) (by decide) (by decide) (by decide)
  exact ⟨ht.1, ht.2.1, ht.2.2 (by decide) (by decide)⟩

/-! ## Claim C6: malformed feedback -/

/-- C6 counterexample: the feedback string "gggggg" has length 6 ≠ LENGTH, yet
`parse_guess` accepts it (only the first LENGTH characters are read), so not
every feedback string of wrong length is reported as an error. -/
theorem malformed_feedback_cex :
    ("gggggg".toList).length ≠ LENGTH ∧
    (parse_guess ("angle".toList) ("gggggg".toList)).isSome = true := by
  decide

/-- C6 corrected: for a length-LENGTH guess word, feedback ingestion reports an
error exactly when the feedback string is shorter than LENGTH or has an invalid
symbol among its first LENGTH characters; an over-long string with valid first
LENGTH symbols is accepted with the excess ignored.  On error no hint set is
produced, so no state transition can be committed. -/
theorem malformed_feedback_amended :
    ∀ (word colors : List Char), word.length = LENGTH →
      ((colors.length < LENGTH → parse_guess word colors = none) ∧
       (∀ i < LENGTH, ∀ ch, colors.get? i = some ch → charToHintType ch = none →
         parse_guess word colors = none) ∧
       ((∀ i < LENGTH, ∃ ch ht, colors.get? i = some ch ∧ charToHintType ch = some ht) →
         (parse_guess word colors).isSome = true)) := by
  intro word colors hw
  have hword : ∀ i, i < LENGTH → ∃ cw, word.get? i = some cw := by
    intro i hi
    cases hgi : word.get? i with
    | none => exact absurd (List.get?_eq_none.mp hgi) (by omega)
    | some cw => exact ⟨cw, rfl⟩
  refine ⟨?_, ?_, ?_⟩
  · intro hclen
    obtain ⟨cw, hcw⟩ := hword colors.length (by omega)
    have hnone : promptAt word colors colors.length = none := by
      rw [List.get?_eq_getElem?] at hcw
      simp [promptAt, hcw, List.getElem?_eq_none (le_refl colors.length)]
    unfold parse_guess
    rw [collectPrompts_fail (List.mem_range.mpr hclen) hnone]
    rfl
  · intro i hi ch hch hdec
    obtain ⟨cw, hcw⟩ := hword i hi
    have hnone : promptAt word colors i = none := by
      rw [List.get?_eq_getElem?] at hcw hch
      simp [promptAt, hcw, hch, hdec]
    unfold parse_guess
    rw [collectPrompts_fail (List.mem_range.mpr hi) hnone]
    rfl
  · intro hvalid
    have hsome : ∀ i ∈ List.range LENGTH, (promptAt word colors i).isSome = true := by
      intro i hi
      have hiL := List.mem_range.mp hi
      obtain ⟨cw, hcw⟩ := hword i hiL
      obtain ⟨ch, ht, hch, hht⟩ := hvalid i hiL
      rw [List.get?_eq_getElem?] at hcw hch
      simp [promptAt, hcw, hch, hht]
    unfold parse_guess
    rw [collectPrompts_complete hsome]
    rfl

/-- Witness for `malformed_feedback_amended`: a too-short string and a string
with an invalid symbol are rejected; a valid length-LENGTH string is
accepted. -/
theorem malformed_feedback_amended_witness :
    parse_guess ("angle".toList) ("ggg".toList) = none ∧
    parse_guess ("angle".toList) ("ggxgg".toList) = none ∧
    (parse_guess ("angle".toList) ("gybgy".toList)).isSome = true :=
  ⟨(malformed_feedback_amended ("angle".toList) ("ggg".toList) (by decide)).1 (by decide),
   (malformed_feedback_amended ("angle".toList) ("ggxgg".toList) (by decide)).2.1 2 (by decide)
     'x' (by decide) (by decide),
   (malformed_feedback_amended ("angle".toList) ("gybgy".toList) (by decide)).2.2 (by
     intro i hi
     have h5 : i < 5 := hi
     interval_cases i
     · exact ⟨'g', HintType.green, rfl, rfl⟩
     · exact ⟨'y', HintType.yellow, rfl, rfl⟩
     · exact ⟨'b', HintType.black, rfl, rfl⟩
     · exact ⟨'g', HintType.green, rfl, rfl⟩
     · exact ⟨'y', HintType.yellow, rfl, rfl⟩)⟩

/-! ## Claim C4: merge monotonicity of the filter -/

theorem check_word_iff (h : Hint) (c : Char) (w : List Char) :
    check_word h c w = true ↔
      (h.min_count ≤ w.count c ∧ w.count c ≤ h.max_count ∧
       ∀ i s, h.indexes.get? i = some s →
         (s = some true → w.get? i = some c) ∧ (s = some false → ¬(w.get? i = some c))) := by
  unfold check_word
  simp only [Bool.and_eq_true, decide_eq_true_eq, List.all_eq_true]
  constructor
  · rintro ⟨⟨h1, h2⟩, h3⟩
    refine ⟨h1, h2, ?_⟩
    intro i s hs
    have hmem := h3 (i, s) (List.mem_enum_iff_get?.mpr hs)
    constructor
    · rintro rfl
      simpa using hmem
    · rintro rfl
      simpa using hmem
  · rintro ⟨h1, h2, h3⟩
    refine ⟨⟨h1, h2⟩, ?_⟩
    rintro ⟨i, s⟩ hmem
    have hs := List.mem_enum_iff_get?.mp hmem
    have hcs := h3 i s hs
    cases s with
    | none => rfl
    | some b =>
      cases b with
      | true => simpa using hcs.1 rfl
      | false => simpa using hcs.2 rfl

/-- C4 counterexample: with history HintSet A parsed from guess "caaaa" and
feedback "gbbbb" (position 0 MustBe c) and new HintSet B parsed from the same
guess with feedback "ybbbb" (position 0 MustNotBe c), the word "bcbbb" passes
the filter under merge(A, B) but fails it under A alone, so merge monotonicity
does not hold for all HintSets. -/
theorem merge_filter_monotone_cex :
    ("bcbbb".toList) ∈ filter_words (mergeHints
      ((parse_guess ("caaaa".toList) ("gbbbb".toList)).getD [])
      ((parse_guess ("caaaa".toList) ("ybbbb".toList)).getD [])) [("bcbbb".toList)] ∧
    ¬(("bcbbb".toList) ∈ filter_words ((parse_guess ("caaaa".toList) ("gbbbb".toList)).getD [])
      [("bcbbb".toList)]) := by
  decide

/-- C4 corrected: merge monotonicity holds whenever the two HintSets do not
disagree at a position — for every letter present in both, at each position at
least one side is Unknown or the two slots are equal.  (The counterexample
shows the unrestricted claim fails: a new non-Unknown slot overwrites a
conflicting old slot, which can loosen the positional constraint.) -/
theorem merge_filter_monotone_amended
    (A B : List (Char × Hint)) (W : List (List Char))
    (hndA : (A.map Prod.fst).Nodup)
    (hlen : ∀ c a b, lookupH A c = some a → lookupH B c = some b →
      a.indexes.length = b.indexes.length)
    (hcompat : ∀ c a b, lookupH A c = some a → lookupH B c = some b →
      ∀ i, b.indexes.get? i = some none ∨ a.indexes.get? i = some none ∨
        a.indexes.get? i = b.indexes.get? i) :
    ∀ w ∈ filter_words (mergeHints A B) W, w ∈ filter_words A W := by
  intro w hw
  obtain ⟨hwW, hall⟩ := mem_filter_words.mp hw
  apply mem_filter_words.mpr
  refine ⟨hwW, ?_⟩
  rintro ⟨c, a⟩ hmemA
  have hla : lookupH A c = some a := mem_lookupH hndA hmemA
  have hlm := lookupH_mergeHints A B c
  rw [hla] at hlm
  cases hlb : lookupH B c with
  | none =>
    rw [hlb] at hlm
    exact hall (c, a) (lookupH_mem hlm)
  | some b =>
    rw [hlb] at hlm
    have hcheck := hall (c, a.mergeWith b) (lookupH_mem hlm)
    rw [check_word_iff] at hcheck ⊢
    dsimp only at hcheck ⊢
    obtain ⟨h1, h2, h3⟩ := hcheck
    have hminmax : (a.mergeWith b).min_count = max a.min_count b.min_count ∧
        (a.mergeWith b).max_count = min a.max_count b.max_count := ⟨rfl, rfl⟩
    refine ⟨?_, ?_, ?_⟩
    · rw [hminmax.1] at h1
      omega
    · rw [hminmax.2] at h2
      omega
    · intro i s hs
      have hia : i < a.indexes.length := by
        by_contra hge
        rw [List.get?_eq_none.mpr (by omega)] at hs
        exact Option.noConfusion hs
      have hib : i < b.indexes.length := by
        rw [← hlen c a b hla hlb]
        exact hia
      obtain ⟨sb, hsb⟩ : ∃ sb, b.indexes.get? i = some sb := by
        cases hbg : b.indexes.get? i with
        | none => exact absurd (List.get?_eq_none.mp hbg) (by omega)
        | some sb => exact ⟨sb, rfl⟩
      have hmerged := mergeWith_slot a b i s sb hs hsb
      cases sb with
      | none => exact h3 i s hmerged
      | some v =>
        rcases hcompat c a b hla hlb i with hcb | hca | heq
        · rw [hsb] at hcb
          exact absurd ((Option.some.injEq _ _).mp hcb) (by simp)
        · rw [hs] at hca
          have hsn : s = none := (Option.some.injEq _ _).mp hca
          subst hsn
          constructor
          · intro habs
            exact absurd habs (by simp)
          · intro habs
            exact absurd habs (by simp)
        · rw [hs, hsb] at heq
          have hseq : s = some v := (Option.some.injEq _ _).mp heq
          rw [hseq]
          exact h3 i (some v) hmerged

/-- Witness for `merge_filter_monotone_amended`: with two agreeing
single-letter HintSets, a word surviving the merged filter survives the
history filter. -/
theorem merge_filter_monotone_amended_witness :
    ("caaaa".toList) ∈ filter_words [('c', ⟨1, 5, [some true, none, none, none, none]⟩)]
      [("caaaa".toList), ("cbbbb".toList), ("acccc".toList)] := by
  refine merge_filter_monotone_amended
    [('c', ⟨1, 5, [some true, none, none, none, none]⟩)]
    [('c', ⟨1, 5, [some true, none, none, none, none]⟩)]
    [("caaaa".toList), ("cbbbb".toList), ("acccc".toList)]
    (by decide) ?_ ?_ ("caaaa".toList) (by decide)
  · intro c a b ha hb
    by_cases hc : 'c' = c
    · simp only [lookupH, hc, if_pos] at ha hb
      rw [← (Option.some.injEq _ _).mp ha, ← (Option.some.injEq _ _).mp hb]
    · simp only [lookupH, hc, if_false] at ha
      exact Option.noConfusion ha
  · intro c a b ha hb i
    by_cases hc : 'c' = c
    · simp only [lookupH, hc, if_pos] at ha hb
      rw [← (Option.some.injEq _ _).mp ha, ← (Option.some.injEq _ _).mp hb]
      right; right; rfl
    · simp only [lookupH, hc, if_false] at ha
      exact Option.noConfusion ha

/-! ## Claim C1: suggest_guess minimizes the adversarial worst case -/

theorem strLt_irrefl (a : List Char) : strLt a a = false := by
  induction a with
  | nil => rfl
  | cons x xs ih => simp [strLt, lt_irrefl, ih]

theorem strLt_asymm : ∀ a b : List Char, strLt a b = true → strLt b a = false := by
  intro a
  induction a with
  | nil =>
    intro b h
    cases b with
    | nil => simp [strLt] at h
    | cons y ys => rfl
  | cons x xs ih =>
    intro b h
    cases b with
    | nil => simp [strLt] at h
    | cons y ys =>
      simp only [strLt] at h ⊢
      by_cases hxy : x < y
      · rw [if_neg (lt_asymm hxy), if_pos hxy]
      · by_cases hyx : y < x
        · rw [if_neg hxy, if_pos hyx] at h
          exact absurd h (by simp)
        · rw [if_neg hxy, if_neg hyx] at h
          rw [if_neg hyx, if_neg hxy]
          exact ih ys h

theorem strLt_trans : ∀ a b c : List Char,
    strLt a b = true → strLt b c = true → strLt a c = true := by
  intro a
  induction a with
  | nil =>
    intro b c hab hbc
    cases c with
    | nil => cases b <;> simp [strLt] at hbc
    | cons z zs => rfl
  | cons x xs ih =>
    intro b c hab hbc
    cases b with
    | nil => simp [strLt] at hab
    | cons y ys =>
      cases c with
      | nil => simp [strLt] at hbc
      | cons z zs =>
        simp only [strLt] at hab hbc ⊢
        by_cases hxy : x < y
        · by_cases hyz : y < z
          · rw [if_pos (lt_trans hxy hyz)]
          · by_cases hzy : z < y
            · rw [if_neg hyz, if_pos hzy] at hbc
              exact absurd hbc (by simp)
            · have hyez : y = z := le_antisymm (not_lt.mp hzy) (not_lt.mp hyz)
              rw [if_pos (hyez ▸ hxy)]
        · by_cases hyx : y < x
          · rw [if_neg hxy, if_pos hyx] at hab
            exact absurd hab (by simp)
          · have hxey : x = y := le_antisymm (not_lt.mp hyx) (not_lt.mp hxy)
            subst hxey
            rw [if_neg hxy, if_neg hyx] at hab
            by_cases hxz : x < z
            · rw [if_pos hxz]
            · by_cases hzx : z < x
              · rw [if_neg hxz, if_pos hzx] at hbc
                exact absurd hbc (by simp)
              · rw [if_neg hxz, if_neg hzx] at hbc ⊢
                exact ih ys zs hab hbc

theorem strLt_connex : ∀ a b : List Char,
    strLt a b = false → strLt b a = false → a = b := by
  intro a
  induction a with
  | nil =>
    intro b h1 _
    cases b with
    | nil => rfl
    | cons y ys => simp [strLt] at h1
  | cons x xs ih =>
    intro b h1 h2
    cases b with
    | nil => simp [strLt] at h2
    | cons y ys =>
      simp only [strLt] at h1 h2
      by_cases hxy : x < y
      · rw [if_pos hxy] at h1
        exact absurd h1 (by simp)
      · by_cases hyx : y < x
        · rw [if_pos hyx] at h2
          exact absurd h2 (by simp)
        · have hxey : x = y := le_antisymm (not_lt.mp hyx) (not_lt.mp hxy)
          subst hxey
          rw [if_neg hxy, if_neg hyx] at h1 h2
          rw [ih ys h1 h2]

theorem keyLt_irrefl (x : Nat × Nat × List Char) : keyLt x x = false := by
  unfold keyLt
  simp [lt_irrefl, strLt_irrefl]

theorem keyLt_trans : ∀ x y z : Nat × Nat × List Char,
    keyLt x y = true → keyLt y z = true → keyLt x z = true := by
  intro x y z hxy hyz
  unfold keyLt at hxy hyz ⊢
  by_cases h1 : x.1 < y.1
  · by_cases h2 : y.1 < z.1
    · rw [if_pos (lt_trans h1 h2)]
    · by_cases h3 : z.1 < y.1
      · rw [if_neg h2, if_pos h3] at hyz
        exact absurd hyz (by simp)
      · rw [if_pos (by omega : x.1 < z.1)]
  · by_cases h4 : y.1 < x.1
    · rw [if_neg h1, if_pos h4] at hxy
      exact absurd hxy (by simp)
    · rw [if_neg h1, if_neg h4] at hxy
      by_cases h2 : y.1 < z.1
      · rw [if_pos (by omega : x.1 < z.1)]
      · by_cases h3 : z.1 < y.1
        · rw [if_neg h2, if_pos h3] at hyz
          exact absurd hyz (by simp)
        · rw [if_neg h2, if_neg h3] at hyz
          rw [if_neg (by omega : ¬x.1 < z.1), if_neg (by omega : ¬z.1 < x.1)]
          by_cases h5 : x.2.1 < y.2.1
          · by_cases h6 : y.2.1 < z.2.1
            · rw [if_pos (lt_trans h5 h6)]
            · by_cases h7 : z.2.1 < y.2.1
              · rw [if_neg h6, if_pos h7] at hyz
                exact absurd hyz (by simp)
              · rw [if_pos (by omega : x.2.1 < z.2.1)]
          · by_cases h8 : y.2.1 < x.2.1
            · rw [if_neg h5, if_pos h8] at hxy
              exact absurd hxy (by simp)
            · rw [if_neg h5, if_neg h8] at hxy
              by_cases h6 : y.2.1 < z.2.1
              · rw [if_pos (by omega : x.2.1 < z.2.1)]
              · by_cases h7 : z.2.1 < y.2.1
                · rw [if_neg h6, if_pos h7] at hyz
                  exact absurd hyz (by simp)
                · rw [if_neg h6, if_neg h7] at hyz
                  rw [if_neg (by omega : ¬x.2.1 < z.2.1),
                    if_neg (by omega : ¬z.2.1 < x.2.1)]
                  exact strLt_trans _ _ _ hxy hyz

theorem keyLt_connex : ∀ x y : Nat × Nat × List Char,
    keyLt x y = false → keyLt y x = false → x = y := by
  intro x y h1 h2
  unfold keyLt at h1 h2
  by_cases ha : x.1 < y.1
  · rw [if_pos ha] at h1
    exact absurd h1 (by simp)
  · by_cases hb : y.1 < x.1
    · rw [if_pos hb] at h2
      exact absurd h2 (by simp)
    · rw [if_neg ha, if_neg hb] at h1 h2
      by_cases hc : x.2.1 < y.2.1
      · rw [if_pos hc] at h1
        exact absurd h1 (by simp)
      · by_cases hd : y.2.1 < x.2.1
        · rw [if_pos hd] at h2
          exact absurd h2 (by simp)
        · rw [if_neg hc, if_neg hd] at h1 h2
          obtain ⟨x1, x2, x3⟩ := x
          obtain ⟨y1, y2, y3⟩ := y
          simp only at ha hb hc hd h1 h2
          have e1 : x1 = y1 := by omega
          have e2 : x2 = y2 := by omega
          have e3 : x3 = y3 := strLt_connex _ _ h1 h2
          rw [e1, e2, e3]

theorem keyLt_asymm : ∀ x y : Nat × Nat × List Char,
    keyLt x y = true → keyLt y x = false := by
  intro x y h
  cases hk : keyLt y x
  · rfl
  · have habs := keyLt_trans _ _ _ h hk
    rw [keyLt_irrefl] at habs
    exact Bool.noConfusion habs

theorem foldl_min_spec (g : GameInfo) :
    ∀ (rs : List (List Char × Nat)) (r : List Char × Nat),
      (rs.foldl (fun best r2 => if keyLt (g.mkKey r2) (g.mkKey best) then r2 else best) r)
        ∈ r :: rs ∧
      ∀ x ∈ r :: rs,
        keyLt (g.mkKey x) (g.mkKey
          (rs.foldl (fun best r2 => if keyLt (g.mkKey r2) (g.mkKey best) then r2 else best) r))
          = false := by
  intro rs
  induction rs with
  | nil =>
    intro r
    refine ⟨List.mem_cons_self _ _, ?_⟩
    intro x hx
    rcases List.mem_cons.mp hx with rfl | hx2
    · exact keyLt_irrefl _
    · simp at hx2
  | cons r2 rest ih =>
    intro r
    rw [List.foldl_cons]
    by_cases hcond : keyLt (g.mkKey r2) (g.mkKey r) = true
    · rw [if_pos hcond]
      obtain ⟨hmem, hmin⟩ := ih r2
      constructor
      · rcases List.mem_cons.mp hmem with hb | hb
        · rw [hb]
          exact List.mem_cons_of_mem _ (List.mem_cons_self _ _)
        · exact List.mem_cons_of_mem _ (List.mem_cons_of_mem _ hb)
      · intro x hx
        rcases List.mem_cons.mp hx with rfl | hx2
        · cases hk : keyLt (g.mkKey x)
            (g.mkKey (rest.foldl
              (fun best r2 => if keyLt (g.mkKey r2) (g.mkKey best) then r2 else best) r2))
          · rfl
          · exfalso
            have htr := keyLt_trans _ _ _ hcond hk
            rw [hmin r2 (List.mem_cons_self _ _)] at htr
            exact Bool.noConfusion htr
        rcases List.mem_cons.mp hx2 with rfl | hx3
        · exact hmin _ (List.mem_cons_self _ _)
        · exact hmin x (List.mem_cons_of_mem _ hx3)
    · rw [if_neg hcond]
      obtain ⟨hmem, hmin⟩ := ih r
      constructor
      · rcases List.mem_cons.mp hmem with hb | hb
        · rw [hb]
          exact List.mem_cons_self _ _
        · exact List.mem_cons_of_mem _ (List.mem_cons_of_mem _ hb)
      · intro x hx
        rcases List.mem_cons.mp hx with rfl | hx2
        · exact hmin _ (List.mem_cons_self _ _)
        rcases List.mem_cons.mp hx2 with rfl | hx3
        · by_cases hrx : keyLt (g.mkKey r) (g.mkKey x) = true
          · cases hk : keyLt (g.mkKey x)
              (g.mkKey (rest.foldl
                (fun best r2 => if keyLt (g.mkKey r2) (g.mkKey best) then r2 else best) r))
            · rfl
            · exfalso
              have htr := keyLt_trans _ _ _ hrx hk
              rw [hmin r (List.mem_cons_self _ _)] at htr
              exact Bool.noConfusion htr
          · have hkeq : g.mkKey x = g.mkKey r :=
              keyLt_connex _ _
                (by revert hcond; cases keyLt (g.mkKey x) (g.mkKey r) <;> simp)
                (by revert hrx; cases keyLt (g.mkKey r) (g.mkKey x) <;> simp)
            rw [hkeq]
            exact hmin r (List.mem_cons_self _ _)
        · exact hmin x (List.mem_cons_of_mem _ hx3)

theorem mapOpt_mem_exists {α β : Type} {f : α → Option β} :
    ∀ {l : List α} {ys : List β}, mapOpt f l = some ys →
      (∀ y ∈ ys, ∃ x ∈ l, f x = some y) ∧ (∀ x ∈ l, ∃ y ∈ ys, f x = some y) := by
  intro l
  induction l with
  | nil =>
    intro ys h
    simp only [mapOpt, Option.some.injEq] at h
    subst h
    simp
  | cons a as ih =>
    intro ys h
    simp only [mapOpt] at h
    cases hfa : f a with
    | none => rw [hfa] at h; simp at h
    | some b =>
      rw [hfa] at h
      cases hm : mapOpt f as with
      | none => rw [hm] at h; simp at h
      | some bs =>
        rw [hm] at h
        simp only [Option.some.injEq] at h
        subst h
        obtain ⟨ih1, ih2⟩ := ih hm
        constructor
        · intro y hy
          rcases List.mem_cons.mp hy with rfl | hy2
          · exact ⟨a, List.mem_cons_self _ _, hfa⟩
          · obtain ⟨x, hx, hfx⟩ := ih1 y hy2
            exact ⟨x, List.mem_cons_of_mem _ hx, hfx⟩
        · intro x hx
          rcases List.mem_cons.mp hx with rfl | hx2
          · exact ⟨b, List.mem_cons_self _ _, hfa⟩
          · obtain ⟨y, hy, hfy⟩ := ih2 x hx2
            exact ⟨y, List.mem_cons_of_mem _ hy, hfy⟩

theorem hypo_worst_hint_fst {ch : List (Char × Hint)} {cw : List (List Char)}
    {word : List Char} {r : List Char × Nat}
    (h : GameInfo.hypo_worst_hint ch cw word = some r) : r.1 = word := by
  unfold GameInfo.hypo_worst_hint at h
  cases hm : mapOpt (fun gr => (parse_guess word gr).map (GameInfo.apply_hypo_hint ch cw))
      POSSIBLE_GUESS_RESULTS with
  | none => rw [hm] at h; simp at h
  | some scores =>
    rw [hm] at h
    simp only [Option.map_some', Option.some.injEq] at h
    rw [← h]

/-- C1: whenever `suggest_guess` returns a word `w`, then `w` is in the corpus
and its result key — worst-case surviving candidate count over all 243
synthetic feedback patterns, then non-candidacy, then the word itself — is
minimal over the whole corpus: no corpus word scores a strictly smaller key,
which is exactly minimal worst case with ties broken first by candidate
membership and then by lexicographically smaller word. -/
theorem suggest_guess_minimax (corpus : List (List Char)) (g : GameInfo) (w : List Char)
    (h : GameInfo.suggest_guess corpus g = some w) :
    w ∈ corpus ∧
    ∃ rw, GameInfo.hypo_worst_hint g.hints g.words w = some rw ∧
      ∀ w' ∈ corpus, ∀ r', GameInfo.hypo_worst_hint g.hints g.words w' = some r' →
        keyLt (g.mkKey r') (g.mkKey rw) = false := by
  unfold GameInfo.suggest_guess at h
  cases hm : mapOpt (GameInfo.hypo_worst_hint g.hints g.words) corpus with
  | none => rw [hm] at h; simp at h
  | some results =>
    rw [hm] at h
    cases results with
    | nil => simp at h
    | cons r rs =>
      simp only [Option.some.injEq] at h
      obtain ⟨hmem, hmin⟩ := foldl_min_spec g rs r
      obtain ⟨hdir1, hdir2⟩ := mapOpt_mem_exists hm
      obtain ⟨x, hxc, hfx⟩ := hdir1 _ hmem
      have hbfst := hypo_worst_hint_fst hfx
      rw [h] at hbfst
      subst hbfst
      refine ⟨hxc, _, hfx, ?_⟩
      intro w' hw' r' hr'
      obtain ⟨y, hy, hfy⟩ := hdir2 w' hw'
      rw [hfy] at hr'
      have hyr : y = r' := (Option.some.injEq _ _).mp hr'
      subst hyr
      exact hmin y hy

/-- Witness for `suggest_guess_minimax` on a concrete two-word corpus with no
accumulated hints: the suggested guess is "aaaaa". -/
theorem suggest_guess_minimax_witness :
    ("aaaaa".toList) ∈ ([("aaaaa".toList), ("baaaa".toList)] : List (List Char)) ∧
    ∃ rw, GameInfo.hypo_worst_hint
        (GameInfo.mk [("aaaaa".toList), ("baaaa".toList)] []).hints
        (GameInfo.mk [("aaaaa".toList), ("baaaa".toList)] []).words ("aaaaa".toList) = some rw ∧
      ∀ w' ∈ ([("aaaaa".toList), ("baaaa".toList)] : List (List Char)), ∀ r',
        GameInfo.hypo_worst_hint
          (GameInfo.mk [("aaaaa".toList), ("baaaa".toList)] []).hints
          (GameInfo.mk [("aaaaa".toList), ("baaaa".toList)] []).words w' = some r' →
        keyLt ((GameInfo.mk [("aaaaa".toList), ("baaaa".toList)] []).mkKey r')
          ((GameInfo.mk [("aaaaa".toList), ("baaaa".toList)] []).mkKey rw) = false :=
  suggest_guess_minimax [("aaaaa".toList), ("baaaa".toList)]
    (GameInfo.mk [("aaaaa".toList), ("baaaa".toList)] []) ("aaaaa".toList) (by decide)
